import Mathlib

/- A formal model of the pdf.tocgen repository: the span filters of
   pdftocgen/filter.py, the metadata extraction helpers of
   pdfxmeta/pdfxmeta.py, and the hierarchy builder and plain-text ToC
   notation codec described by the specification (their implementation
   modules, pdftocgen/tocgen.py, fitzutils and pdftocio/tocparser.py, are
   imported by the sources but absent from the repository snapshot, so they
   are modelled from the specification's words where needed).

   Modelling conventions: Python strings are lists of characters, Python
   floats are rationals, Python dict lookups with optional keys are Option
   fields, and raised exceptions are Except values. -/

namespace PdfToc

/-- Characters stripped by trimming, modelling Python str.strip whitespace. -/
def isWS (c : Char) : Bool := c = ' ' || c = '\t' || c = '\n' || c = '\r'

/-- Strip whitespace from both ends of a character list (Python str.strip). -/
def trim (l : List Char) : List Char :=
  ((l.dropWhile isWS).reverse.dropWhile isWS).reverse

/-- Join character lists with a separator between elements (Python str concatenation
    with a separator, the join method). -/
def pyJoin (sep : List Char) : List (List Char) → List Char
  | [] => []
  | [x] => x
  | x :: y :: xs => x ++ sep ++ pyJoin sep (y :: xs)

/-- A text span as produced by PyMuPDF extraction: a dictionary from which the
    modelled code reads the optional keys 'font', 'size' and 'text'; a missing
    key is represented by none. -/
structure Span where
  font : Option (List Char)
  size : Option ℚ
  text : Option (List Char)
deriving DecidableEq

/-- The default size tolerance of filter.py line 12 (DEF_TOLERANCE = 1e-5). -/
def DEF_TOLERANCE : ℚ := 1 / 100000

/-- Embeds admits_float of filter.py lines 15-20: a float is admitted when the
    expected value is unset, or when the actual value is present and within
    tolerance of the expected value (boundary inclusive). -/
def admits_float (expect actual : Option ℚ) (tolerance : ℚ) : Bool :=
  match expect with
  | none => true
  | some e =>
    match actual with
    | none => false
    | some a => decide (|e - a| ≤ tolerance)

/-- The font sub-table of a recipe entry, as read by ToCFilter.__init__
    (keys 'name' and 'size' of fltr_dict.get('font', the empty dict)). -/
structure FontDict where
  name : Option (List Char)
  size : Option ℚ
deriving DecidableEq

/-- A recipe entry (one heading table) as read by ToCFilter.__init__:
    the keys 'level', 'greedy' and 'font', each possibly absent. -/
structure FilterDict where
  level : Option ℤ
  greedy : Option Bool
  font : Option FontDict
deriving DecidableEq

/-- The specification's RecipeError taxonomy for a malformed filter: the level
    key is missing, or its value is below 1.  In the source the two cases raise
    ValueError with corresponding messages (filter.py lines 37-40); the
    specification names this construction failure RecipeError. -/
inductive RecipeError where
  | levelMissing
  | levelNotPositive
deriving DecidableEq

/-- The heading filter of filter.py (class ToCFilter): level, greediness and
    the optional font-name and font-size constraints. -/
structure ToCFilter where
  level : ℤ
  greedy : Bool
  font_name : Option (List Char)
  font_size : Option ℚ
deriving DecidableEq

/-- Embeds ToCFilter.__init__ (filter.py lines 34-45): fails when 'level' is
    missing or below 1; otherwise reads greedy (default false) and the optional
    font name and size.  Construction reads only the recipe entry and no span. -/
def ToCFilter.ofDict (d : FilterDict) : Except RecipeError ToCFilter :=
  match d.level with
  | none => Except.error RecipeError.levelMissing
  | some lvl =>
    if lvl < 1 then Except.error RecipeError.levelNotPositive
    else Except.ok ⟨lvl, d.greedy.getD false, (d.font.getD ⟨none, none⟩).name,
                    (d.font.getD ⟨none, none⟩).size⟩

/-- Embeds ToCFilter.admits (filter.py lines 47-57): reject when a set
    font_name differs from the span's font; otherwise admit when font_size is
    unset or exactly equal to the span's size.  Note the source compares sizes
    with ==, not via admits_float. -/
def ToCFilter.admits (fltr : ToCFilter) (spn : Span) : Bool :=
  if fltr.font_name ≠ none ∧ fltr.font_name ≠ spn.font then false
  else decide (fltr.font_size = none ∨ fltr.font_size = spn.size)

/-- A line of a text block: its list of spans (the 'spans' key; a missing key
    reads as the empty list). -/
abbrev TextLine := List Span

/-- A text block: its list of lines (the 'lines' key). -/
abbrev Block := List TextLine

/-- A page: its list of text blocks (the 'blocks' key of extractDICT). -/
abbrev Page := List Block

/-- Embeds blk_to_str (pdfxmeta.py lines 73-79): every span text of the block,
    stripped, joined with single spaces; lines are the outer loop and spans the
    inner loop, so span order is block order. -/
def blk_to_str (blk : Block) : List Char :=
  pyJoin [' '] ((blk.map (fun ln => ln.map (fun spn => trim (spn.text.getD [])))).flatten)

/-- Embeds search_in_page (pdfxmeta.py lines 47-71): the spans of the page, in
    block-line-span order, whose text matches the search predicate.  The
    compiled regular expression is modelled as the predicate argument. -/
def search_in_page (sel : List Char → Bool) (page : Page) : List Span :=
  (page.flatten.flatten).filter (fun spn => sel (spn.text.getD []))

/-- Embeds extract_meta (pdfxmeta.py lines 11-44): with no explicit page the
    whole document is searched; with an explicit 1-based page number the search
    runs on that page only when 1 ≤ page ≤ page_count, and otherwise the empty
    result is returned at once. -/
def extract_meta (doc : List Page) (sel : List Char → Bool) (page : Option ℤ) :
    List Span :=
  match page with
  | none => (doc.map (search_in_page sel)).flatten
  | some p =>
    if 1 ≤ p ∧ p ≤ (doc.length : ℤ) then
      search_in_page sel (doc.getD (p - 1).toNat [])
    else []

/-- Embeds str.partition for the character '+' as used by dump_toml
    (pdfxmeta.py line 377): split at the first '+', or none when absent. -/
def partitionPlus : List Char → Option (List Char × List Char)
  | [] => none
  | c :: rest =>
    if c = '+' then some ([], rest)
    else (partitionPlus rest).map (fun p => (c :: p.1, p.2))

/-- Embeds the font-subset stripping of dump_toml (pdfxmeta.py lines 375-378):
    the portion after the first '+' when one is present, else the whole name. -/
def stripSubsetPfx (l : List Char) : List Char :=
  match partitionPlus l with
  | some p => p.2
  | none => l

/-- The font.name value emitted by dump_toml (pdfxmeta.py line 380) for a span:
    the span's font name with any font-subset prefix stripped. -/
def dump_toml_font (spn : Span) : Option (List Char) :=
  spn.font.map stripSubsetPfx

/-- Modelled from the spec: the heading-text step of the Hierarchy Builder
    (spec 4.2 step 2) lives in pdftocgen/tocgen.py, which is imported by the
    sources but missing from the repository snapshot.  Per the specification, a
    greedy winning filter captures the entire enclosing block via blk_to_str,
    and a non-greedy one captures exactly the span's own text. -/
def heading_text (fltr : ToCFilter) (blk : Block) (spn : Span) : List Char :=
  if fltr.greedy then blk_to_str blk else spn.text.getD []

/-- Modelled from the spec: the heading data carried by one matched span
    (spec 3, ToCEntry fields), produced by the matching pass of the Hierarchy
    Builder in the missing pdftocgen/tocgen.py.  Vertical positions are
    modelled as exact decimal integers (fixed-precision decimals are in
    bijection with integers, so the codec's numeral rendering is exact). -/
structure Heading where
  title : List Char
  level : ℕ
  page : ℕ
  vpos : Option ℕ
deriving DecidableEq

mutual
/-- Modelled from the spec: a node of the ToC Tree (spec 3), built by the
    Hierarchy Builder of the missing pdftocgen/tocgen.py: heading data plus the
    ordered children. -/
inductive ToCEntry where
  | mk : Heading → ToCForest → ToCEntry
deriving DecidableEq
/-- Modelled from the spec: an ordered forest of ToC entries (spec 3, ToC
    Tree); a first-order list so that all recursion stays structural. -/
inductive ToCForest where
  | nil : ToCForest
  | cons : ToCEntry → ToCForest → ToCForest
deriving DecidableEq
end

/-- Concatenation of forests. -/
def fapp : ToCForest → ToCForest → ToCForest
  | ToCForest.nil, ys => ys
  | ToCForest.cons e rest, ys => ToCForest.cons e (fapp rest ys)

/-- The one-entry forest. -/
def fone (e : ToCEntry) : ToCForest := ToCForest.cons e ToCForest.nil

/-- Append an entry at the end of a forest. -/
def fsnoc (xs : ToCForest) (e : ToCEntry) : ToCForest := fapp xs (fone e)

/-- A childless entry for a heading. -/
def leaf (h : Heading) : ToCEntry := ToCEntry.mk h ToCForest.nil

/-- The heading data of an entry. -/
def hdOf : ToCEntry → Heading
  | ToCEntry.mk h _ => h

/-- The level of an entry. -/
def lvlE (e : ToCEntry) : ℕ := (hdOf e).level

mutual
/-- Pre-order flattening of an entry: its heading, then its children's. -/
def flattenOne : ToCEntry → List Heading
  | ToCEntry.mk h cs => h :: flattenF cs
/-- Pre-order flattening of a forest in sibling order (depth-first). -/
def flattenF : ToCForest → List Heading
  | ToCForest.nil => []
  | ToCForest.cons e rest => flattenOne e ++ flattenF rest
end

/-- Modelled from the spec: an open entry on the Hierarchy Builder's stack
    (spec 4.2 step 4): its heading and the children collected so far. -/
structure Frame where
  hd : Heading
  cs : ToCForest

/-- Close a frame into a finished entry. -/
def finF (f : Frame) : ToCEntry := ToCEntry.mk f.hd f.cs

/-- Reopen an entry as a frame (inverse of finF). -/
def frameOf : ToCEntry → Frame
  | ToCEntry.mk h cs => ⟨h, cs⟩

/-- The level of a frame. -/
def flvl (f : Frame) : ℕ := f.hd.level

/-- Append a finished child at the end of a frame's children. -/
def addChild (g : Frame) (e : ToCEntry) : Frame := ⟨g.hd, fsnoc g.cs e⟩

/-- Assemble a bottom-first list of open frames into the forest they denote:
    each frame's entry carries its collected children followed by the frame
    above it, so the list is the right spine of a single tree. -/
def spineB : List Frame → ToCForest
  | [] => ToCForest.nil
  | f :: rest => fone (ToCEntry.mk f.hd (fapp f.cs (spineB rest)))

/-- Modelled from the spec: the builder state (spec 4.2 step 4): the finished
    roots so far and the stack of open entries, top first. -/
structure BState where
  roots : ToCForest
  stack : List Frame

/-- Modelled from the spec: the popping loop of spec 4.2 step 4, carrying the
    most recently closed entry e downward: while the top open entry has level
    ≥ L it is closed around e; the carried entry lands as last child of the
    first frame with level < L, or as a new root when none remains. -/
def popCarry (L : ℕ) (roots : ToCForest) (e : ToCEntry) : List Frame → ToCForest × List Frame
  | [] => (fsnoc roots e, [])
  | g :: rest =>
    if L ≤ flvl g then popCarry L roots (finF (addChild g e)) rest
    else (roots, addChild g e :: rest)

/-- Modelled from the spec: pop every open entry with level ≥ L
    (spec 4.2 step 4). -/
def popGE (L : ℕ) (roots : ToCForest) : List Frame → ToCForest × List Frame
  | [] => (roots, [])
  | f :: rest =>
    if L ≤ flvl f then popCarry L roots (finF f) rest
    else (roots, f :: rest)

/-- Modelled from the spec: insert one matched heading (spec 4.2 step 4): pop
    every open entry with level ≥ the new level, then push the new entry as a
    fresh open frame. -/
def stepB (st : BState) (h : Heading) : BState :=
  let p := popGE h.level st.roots st.stack
  ⟨p.1, ⟨h, ToCForest.nil⟩ :: p.2⟩

/-- Close all remaining open entries at end of stream: the denoted forest. -/
def collapse (st : BState) : ToCForest :=
  fapp st.roots (spineB st.stack.reverse)

/-- Modelled from the spec: the Hierarchy Builder of spec 4.2 (its
    implementation, pdftocgen/tocgen.py, is missing from the snapshot): fold
    the matched headings in document order through the stack insertion and
    close everything at the end. -/
def buildToc (hs : List Heading) : ToCForest :=
  collapse (hs.foldl stepB ⟨ToCForest.nil, []⟩)

/-- Modelled from the spec: the parent-attachment reading of spec 4.2 step 4:
    walk the right spine of the forest and append the new heading as last
    child of the deepest entry with level < the new level, or as a new
    top-level root when there is none. -/
def insertRec : ToCForest → Heading → ToCForest
  | ToCForest.nil, h => fone (leaf h)
  | ToCForest.cons (ToCEntry.mk hd cs) ToCForest.nil, h =>
    if hd.level < h.level then fone (ToCEntry.mk hd (insertRec cs h))
    else ToCForest.cons (ToCEntry.mk hd cs) (fone (leaf h))
  | ToCForest.cons e rest, h => ToCForest.cons e (insertRec rest h)

/-- The builder-state invariant between insertions: stack levels strictly
    decrease towards the top, the top frame has no collected children yet
    (it is the most recently pushed heading), and an empty stack only occurs
    in the initial state with no roots. -/
def InvB (st : BState) : Prop :=
  List.Pairwise (fun a b => flvl b < flvl a) st.stack ∧
  (∀ f, st.stack.head? = some f → f.cs = ToCForest.nil) ∧
  (st.stack = [] → st.roots = ToCForest.nil)

/-- The last entry of a forest, if any. -/
def flast : ToCForest → Option ToCEntry
  | ToCForest.nil => none
  | ToCForest.cons e ToCForest.nil => some e
  | ToCForest.cons _ (ToCForest.cons e rest) => flast (ToCForest.cons e rest)

/-- The field separator of the ToC text notation (spec 4.3). -/
def sepC : List Char := [' ', '|', ' ']

/-- The decimal digit character for a value below ten. -/
def digitChar (d : ℕ) : Char :=
  if d = 0 then '0' else if d = 1 then '1' else if d = 2 then '2'
  else if d = 3 then '3' else if d = 4 then '4' else if d = 5 then '5'
  else if d = 6 then '6' else if d = 7 then '7' else if d = 8 then '8' else '9'

/-- The numeric value of a digit character. -/
def digitVal (c : Char) : ℕ := c.toNat - 48

/-- Test for a decimal digit character. -/
def isDigitCh (c : Char) : Bool := decide (48 ≤ c.toNat) && decide (c.toNat ≤ 57)

/-- Decimal numeral of a positive number, most significant digit first; the
    fuel argument only bounds the recursion and any fuel ≥ n works. -/
def natCharsAux : ℕ → ℕ → List Char
  | 0, _ => []
  | _ + 1, 0 => []
  | fuel + 1, n + 1 => natCharsAux fuel ((n + 1) / 10) ++ [digitChar ((n + 1) % 10)]

/-- Decimal numeral of a natural number. -/
def natChars (n : ℕ) : List Char :=
  if n = 0 then ['0'] else natCharsAux n n

/-- Parse a nonempty all-digit numeral, most significant digit first. -/
def parseNatDigits (l : List Char) : Option ℕ :=
  if l ≠ [] ∧ l.all isDigitCh then some (Nat.ofDigits 10 ((l.map digitVal).reverse))
  else none

/-- Count the leading two-space indentation pairs of a line (spec 4.3 parse). -/
def countPairs : List Char → ℕ
  | c1 :: c2 :: rest => if c1 = ' ' ∧ c2 = ' ' then countPairs rest + 1 else 0
  | _ => 0

/-- Split a line at the first occurrence of the field separator. -/
def splitFirstSep : List Char → Option (List Char × List Char)
  | [] => none
  | c :: rest =>
    if (c :: rest).take 3 = sepC then some ([], rest.drop 2)
    else (splitFirstSep rest).map (fun p => (c :: p.1, p.2))

/-- Split a line at the last occurrence of the field separator (spec 4.3:
    rightmost separator first), via the first occurrence in the reversal
    (the separator is a palindrome). -/
def splitLastSep (l : List Char) : Option (List Char × List Char) :=
  match splitFirstSep l.reverse with
  | none => none
  | some p => some (p.2.reverse, p.1.reverse)

/-- A line occurrence of the field separator, as a proposition. -/
def HasSep (l : List Char) : Prop := ∃ a b, l = a ++ sepC ++ b

/-- A blank line: only whitespace (spec 4.3: blank lines ignored). -/
def isBlank (l : List Char) : Bool := l.all isWS

/-- Split a text into lines at newline characters. -/
def splitNl : List Char → List (List Char)
  | [] => [[]]
  | c :: rest =>
    if c = '\n' then [] :: splitNl rest
    else
      match splitNl rest with
      | [] => [[c]]
      | x :: xs => (c :: x) :: xs

/-- Modelled from the spec: render one heading as a notation line (spec 4.3
    dump, implemented by the missing fitzutils dump_toc): two spaces per level
    below the declared level, the title, a separator and the page, and for a
    present vertical position a further separator and its value. -/
def renderLine (h : Heading) : List Char :=
  List.replicate (2 * (h.level - 1)) ' ' ++ h.title ++ sepC ++ natChars h.page ++
    (match h.vpos with
     | some v => sepC ++ natChars v
     | none => [])

/-- Modelled from the spec: dump a ToC forest to text (spec 4.3): depth-first
    pre-order traversal in sibling order, one line per entry, joined by
    newlines (implemented by the missing fitzutils dump_toc). -/
def dumpToc (forest : ToCForest) : List Char :=
  pyJoin ['\n'] ((flattenF forest).map renderLine)

/-- Modelled from the spec: parse one non-blank notation line (spec 4.3,
    implemented by the missing pdftocio/tocparser.py): the level is the count
    of leading space pairs plus one; the remainder splits at the last one or
    two separators into title, page and optional vpos; the title is trimmed;
    a page that is not a positive integer fails the parse. -/
def parseLine (l : List Char) : Option Heading :=
  match splitLastSep (l.drop (2 * countPairs l)) with
  | none => none
  | some p1 =>
    match splitLastSep p1.1 with
    | some p2 =>
      match parseNatDigits p2.2, parseNatDigits p1.2 with
      | some pg, some v =>
        if 1 ≤ pg then some ⟨trim p2.1, countPairs l + 1, pg, some v⟩ else none
      | _, _ => none
    | none =>
      match parseNatDigits p1.2 with
      | some pg => if 1 ≤ pg then some ⟨trim p1.1, countPairs l + 1, pg, none⟩ else none
      | none => none

/-- Parse the numbered lines, skipping blank ones; a bad line fails the whole
    parse with its 1-based line number (spec 7, ParseError). -/
def parseLines : ℕ → List (List Char) → Except ℕ (List Heading)
  | _, [] => Except.ok []
  | i, l :: ls =>
    if isBlank l then parseLines (i + 1) ls
    else
      match parseLine l with
      | none => Except.error i
      | some h =>
        match parseLines (i + 1) ls with
        | Except.error e => Except.error e
        | Except.ok hs => Except.ok (h :: hs)

/-- Modelled from the spec: parse a whole notation text back into a ToC
    forest (spec 4.3, the missing pdftocio/tocparser.py): split into lines,
    parse each non-blank line, and rebuild with the identical stack insertion
    used by the builder.  No partial tree is returned on error. -/
def parseToc (text : List Char) : Except ℕ ToCForest :=
  match parseLines 1 (splitNl text) with
  | Except.error e => Except.error e
  | Except.ok hs => Except.ok (buildToc hs)

deriving instance DecidableEq for Except

/- ===================== theorems ===================== -/

theorem fapp_nil : ∀ xs : ToCForest, fapp xs ToCForest.nil = xs
  | ToCForest.nil => rfl
  | ToCForest.cons e rest => by simp [fapp, fapp_nil rest]

theorem fapp_assoc : ∀ a b c : ToCForest, fapp (fapp a b) c = fapp a (fapp b c)
  | ToCForest.nil, _, _ => rfl
  | ToCForest.cons e rest, b, c => by simp [fapp, fapp_assoc rest b c]

theorem flattenF_fapp : ∀ xs ys : ToCForest,
    flattenF (fapp xs ys) = flattenF xs ++ flattenF ys
  | ToCForest.nil, ys => rfl
  | ToCForest.cons e rest, ys => by
    simp [fapp, flattenF, flattenF_fapp rest ys]

theorem finF_frameOf : ∀ e : ToCEntry, finF (frameOf e) = e
  | ToCEntry.mk _ _ => rfl

theorem frameOf_finF (f : Frame) : frameOf (finF f) = f := rfl

theorem spineB_one (e : ToCEntry) : spineB [frameOf e] = fone e := by
  cases e with
  | mk h cs => simp [spineB, frameOf, fone, fapp_nil]

theorem spineB_snoc2 : ∀ (l : List Frame) (g : Frame) (e : ToCEntry),
    spineB (l ++ [g, frameOf e]) = spineB (l ++ [addChild g e]) := by
  intro l
  induction l with
  | nil =>
    intro g e
    cases e with
    | mk h cs => simp [spineB, frameOf, addChild, fsnoc, fone, fapp_nil, fapp_assoc]
  | cons x l ih =>
    intro g e
    simp [spineB, ih g e]

theorem popCarry_collapse (L : ℕ) : ∀ (rest : List Frame) (roots : ToCForest) (e : ToCEntry),
    fapp (popCarry L roots e rest).1 (spineB (popCarry L roots e rest).2.reverse) =
      fapp roots (spineB (rest.reverse ++ [frameOf e])) := by
  intro rest
  induction rest with
  | nil =>
    intro roots e
    cases e with
    | mk h cs => simp [popCarry, frameOf, fsnoc, fone, fapp_nil, fapp_assoc, spineB]
  | cons g rest ih =>
    intro roots e
    by_cases hg : L ≤ flvl g
    · rw [popCarry, if_pos hg, ih roots (finF (addChild g e)), frameOf_finF]
      have : (g :: rest).reverse ++ [frameOf e] = rest.reverse ++ [g, frameOf e] := by simp
      rw [this, spineB_snoc2]
    · rw [popCarry, if_neg hg]
      have : (g :: rest).reverse ++ [frameOf e] = rest.reverse ++ [g, frameOf e] := by simp
      rw [this, spineB_snoc2]
      simp

theorem popGE_collapse (L : ℕ) (roots : ToCForest) : ∀ stack : List Frame,
    fapp (popGE L roots stack).1 (spineB (popGE L roots stack).2.reverse) =
      fapp roots (spineB stack.reverse) := by
  intro stack
  cases stack with
  | nil => rfl
  | cons f rest =>
    by_cases hf : L ≤ flvl f
    · rw [popGE, if_pos hf, popCarry_collapse L rest roots (finF f), frameOf_finF]
      simp
    · rw [popGE, if_neg hf]

theorem flattenF_spineB_snoc (h : Heading) : ∀ bs : List Frame,
    flattenF (spineB (bs ++ [Frame.mk h ToCForest.nil])) = flattenF (spineB bs) ++ [h] := by
  intro bs
  induction bs with
  | nil => simp [spineB, flattenF, fone, flattenOne, fapp]
  | cons g bs ih =>
    simp [spineB, flattenF, fone, flattenOne, flattenF_fapp, ih]

theorem flattenF_collapse_stepB (st : BState) (h : Heading) :
    flattenF (collapse (stepB st h)) = flattenF (collapse st) ++ [h] := by
  cases st with
  | mk roots stack =>
    show flattenF (fapp (popGE h.level roots stack).1
      (spineB ((⟨h, ToCForest.nil⟩ :: (popGE h.level roots stack).2).reverse))) = _
    rw [List.reverse_cons, flattenF_fapp, flattenF_spineB_snoc, ← List.append_assoc,
      ← flattenF_fapp, popGE_collapse]
    rfl

theorem flattenF_foldl_stepB : ∀ (hs : List Heading) (st : BState),
    flattenF (collapse (hs.foldl stepB st)) = flattenF (collapse st) ++ hs := by
  intro hs
  induction hs with
  | nil => intro st; simp
  | cons h hs ih =>
    intro st
    rw [List.foldl_cons, ih (stepB st h), flattenF_collapse_stepB]
    simp

theorem flattenF_buildToc (hs : List Heading) : flattenF (buildToc hs) = hs := by
  rw [buildToc, flattenF_foldl_stepB]
  rfl

theorem insertRec_fone (hd : Heading) (cs : ToCForest) (h : Heading) :
    insertRec (fone (ToCEntry.mk hd cs)) h =
      if hd.level < h.level then fone (ToCEntry.mk hd (insertRec cs h))
      else ToCForest.cons (ToCEntry.mk hd cs) (fone (leaf h)) := by
  rfl

theorem insertRec_fapp_fone : ∀ (xs : ToCForest) (x : ToCEntry) (h : Heading),
    insertRec (fapp xs (fone x)) h = fapp xs (insertRec (fone x) h)
  | ToCForest.nil, x, h => rfl
  | ToCForest.cons e rest, x, h => by
    cases rest with
    | nil =>
      cases e with
      | mk hd cs =>
        cases x with
        | mk xh xcs => simp [fapp, fone, insertRec]
    | cons e' rest' =>
      cases e with
      | mk hd cs =>
        have ih := insertRec_fapp_fone (ToCForest.cons e' rest') x h
        show ToCForest.cons (ToCEntry.mk hd cs)
            (insertRec (fapp (ToCForest.cons e' rest') (fone x)) h) =
          ToCForest.cons (ToCEntry.mk hd cs)
            (fapp (ToCForest.cons e' rest') (insertRec (fone x) h))
        rw [ih]

theorem insertRec_ge : ∀ (cs : ToCForest) (h : Heading),
    (cs = ToCForest.nil ∨ ∃ e, flast cs = some e ∧ h.level ≤ lvlE e) →
    insertRec cs h = fapp cs (fone (leaf h))
  | ToCForest.nil, h, _ => rfl
  | ToCForest.cons (ToCEntry.mk hd cs0) ToCForest.nil, h, hyp => by
    rcases hyp with hnil | ⟨e, he, hle⟩
    · exact absurd hnil (by simp)
    · have : e = ToCEntry.mk hd cs0 := by
        simpa [flast] using he.symm
      subst this
      have : ¬ hd.level < h.level := by
        simp [lvlE, hdOf] at hle
        omega
      simp [insertRec, this, fapp, fone]
  | ToCForest.cons e (ToCForest.cons e' rest), h, hyp => by
    rcases hyp with hnil | ⟨x, hx, hle⟩
    · exact absurd hnil (by simp)
    · have ih := insertRec_ge (ToCForest.cons e' rest) h
        (Or.inr ⟨x, by simpa [flast] using hx, hle⟩)
      cases e with
      | mk hd cs => simp [insertRec, fapp, ih]

theorem spineB_cons_ex (f : Frame) (l : List Frame) :
    spineB (f :: l) = fone (ToCEntry.mk f.hd (fapp f.cs (spineB l))) := rfl

theorem insert_spine_fresh : ∀ (bs : List Frame) (gl : Frame) (roots : ToCForest)
    (h : Heading), (∀ f ∈ bs, flvl f < h.level) → flvl gl < h.level →
    (gl.cs = ToCForest.nil ∨ ∃ e, flast gl.cs = some e ∧ h.level ≤ lvlE e) →
    insertRec (fapp roots (spineB (bs ++ [gl]))) h =
      fapp roots (spineB (bs ++ [gl] ++ [Frame.mk h ToCForest.nil])) := by
  intro bs
  induction bs with
  | nil =>
    intro gl roots h _ hgl hcs
    have hgl' : gl.hd.level < h.level := hgl
    rw [List.nil_append, spineB_cons_ex, spineB, fapp_nil, insertRec_fapp_fone,
      insertRec_fone, if_pos hgl', insertRec_ge gl.cs h hcs]
    simp [spineB, fone, fapp_nil, leaf]
  | cons b bs ih =>
    intro gl roots h hmem hgl hcs
    have hb : b.hd.level < h.level := hmem b (by simp)
    have hmem' : ∀ f ∈ bs, flvl f < h.level := fun f hf => hmem f (by simp [hf])
    obtain ⟨Z, hZ⟩ : ∃ Z, spineB (bs ++ [gl]) = fone Z := by
      cases bs with
      | nil => exact ⟨_, rfl⟩
      | cons b' bs' => exact ⟨_, rfl⟩
    have hinner : insertRec (spineB (bs ++ [gl])) h =
        spineB (bs ++ [gl] ++ [Frame.mk h ToCForest.nil]) := by
      have := ih gl ToCForest.nil h hmem' hgl hcs
      simpa [fapp] using this
    rw [List.cons_append, spineB_cons_ex, insertRec_fapp_fone, insertRec_fone,
      if_pos hb, hZ, insertRec_fapp_fone, ← hZ, hinner]
    rw [List.cons_append, spineB_cons_ex]

theorem insert_spine_carry : ∀ (bs : List Frame) (gf : Frame) (e : ToCEntry)
    (roots : ToCForest) (h : Heading), (∀ f ∈ bs, flvl f < h.level) →
    flvl gf < h.level → h.level ≤ lvlE e →
    insertRec (fapp roots (spineB (bs ++ [gf, frameOf e]))) h =
      fapp roots (spineB (bs ++ [addChild gf e, Frame.mk h ToCForest.nil])) := by
  intro bs
  induction bs with
  | nil =>
    intro gf e roots h _ hgf hle
    have hgf' : gf.hd.level < h.level := hgf
    rw [List.nil_append, List.nil_append, spineB_cons_ex, spineB_one,
      insertRec_fapp_fone, insertRec_fone, if_pos hgf', insertRec_fapp_fone]
    cases e with
    | mk eh ecs =>
      have : ¬ eh.level < h.level := by
        simp [lvlE, hdOf] at hle
        omega
      rw [insertRec_fone, if_neg this]
      simp [spineB, addChild, fsnoc, fone, fapp_nil, fapp_assoc, fapp, leaf]
  | cons b bs ih =>
    intro gf e roots h hmem hgf hle
    have hb : b.hd.level < h.level := hmem b (by simp)
    have hmem' : ∀ f ∈ bs, flvl f < h.level := fun f hf => hmem f (by simp [hf])
    obtain ⟨Z, hZ⟩ : ∃ Z, spineB (bs ++ [gf, frameOf e]) = fone Z := by
      cases bs with
      | nil => exact ⟨_, rfl⟩
      | cons b' bs' => exact ⟨_, rfl⟩
    have hinner : insertRec (spineB (bs ++ [gf, frameOf e])) h =
        spineB (bs ++ [addChild gf e, Frame.mk h ToCForest.nil]) := by
      have := ih gf e ToCForest.nil h hmem' hgf hle
      simpa [fapp] using this
    rw [List.cons_append, spineB_cons_ex, insertRec_fapp_fone, insertRec_fone,
      if_pos hb, hZ, insertRec_fapp_fone, ← hZ, hinner]
    rw [List.cons_append, spineB_cons_ex]

theorem popCarry_insert : ∀ (rest : List Frame) (roots : ToCForest) (e : ToCEntry)
    (h : Heading), h.level ≤ lvlE e →
    List.Pairwise (fun a b => flvl b < flvl a) rest →
    fapp (popCarry h.level roots e rest).1
        (spineB ((popCarry h.level roots e rest).2.reverse ++ [Frame.mk h ToCForest.nil])) =
      insertRec (fapp roots (spineB (rest.reverse ++ [frameOf e]))) h := by
  intro rest
  induction rest with
  | nil =>
    intro roots e h hle _
    rw [popCarry]
    simp only [List.reverse_nil, List.nil_append]
    rw [spineB_one, insertRec_fapp_fone]
    cases e with
    | mk eh ecs =>
      have : ¬ eh.level < h.level := by
        simp [lvlE, hdOf] at hle
        omega
      rw [insertRec_fone, if_neg this]
      simp [spineB, fsnoc, fone, fapp_nil, fapp_assoc, fapp, leaf]
  | cons g rest ih =>
    intro roots e h hle hpw
    by_cases hg : h.level ≤ flvl g
    · rw [popCarry, if_pos hg]
      have hle' : h.level ≤ lvlE (finF (addChild g e)) := by
        simpa [lvlE, hdOf, finF, addChild, flvl] using hg
      rw [ih roots (finF (addChild g e)) h hle' (List.Pairwise.of_cons hpw),
        frameOf_finF]
      have hlist : (g :: rest).reverse ++ [frameOf e] = rest.reverse ++ [g, frameOf e] := by
        simp
      rw [hlist, spineB_snoc2]
    · rw [popCarry, if_neg hg]
      have hg' : flvl g < h.level := by omega
      have hmem : ∀ f ∈ rest.reverse, flvl f < h.level := by
        intro f hf
        have : flvl f < flvl g := (List.pairwise_cons.mp hpw).1 f (List.mem_reverse.mp hf)
        omega
      have hlist : (g :: rest).reverse ++ [frameOf e] = rest.reverse ++ [g, frameOf e] := by
        simp
      rw [hlist, insert_spine_carry rest.reverse g e roots h hmem hg' hle]
      have hlist2 : (addChild g e :: rest).reverse ++ [Frame.mk h ToCForest.nil] =
          rest.reverse ++ [addChild g e, Frame.mk h ToCForest.nil] := by
        simp
      rw [hlist2]

theorem step_insert (st : BState) (h : Heading) (hinv : InvB st) :
    collapse (stepB st h) = insertRec (collapse st) h := by
  obtain ⟨hpw, htop, hroots⟩ := hinv
  cases st with
  | mk roots stack =>
    cases stack with
    | nil =>
      have hr : roots = ToCForest.nil := hroots rfl
      subst hr
      rfl
    | cons f rest =>
      by_cases hf : h.level ≤ flvl f
      · show fapp (popGE h.level roots (f :: rest)).1
          (spineB ((⟨h, ToCForest.nil⟩ :: (popGE h.level roots (f :: rest)).2).reverse)) = _
        rw [popGE, if_pos hf]
        rw [List.reverse_cons]
        have hle : h.level ≤ lvlE (finF f) := by simpa [lvlE, hdOf, finF, flvl] using hf
        rw [popCarry_insert rest roots (finF f) h hle (List.Pairwise.of_cons hpw),
          frameOf_finF]
        show _ = insertRec (fapp roots (spineB (f :: rest).reverse)) h
        have : (f :: rest).reverse = rest.reverse ++ [f] := by simp
        rw [this]
      · show fapp (popGE h.level roots (f :: rest)).1
          (spineB ((⟨h, ToCForest.nil⟩ :: (popGE h.level roots (f :: rest)).2).reverse)) = _
        rw [popGE, if_neg hf]
        rw [List.reverse_cons]
        have hf' : flvl f < h.level := by omega
        have hmem : ∀ g ∈ rest.reverse, flvl g < h.level := by
          intro g hg
          have : flvl g < flvl f := (List.pairwise_cons.mp hpw).1 g (List.mem_reverse.mp hg)
          omega
        have hcs : f.cs = ToCForest.nil ∨ ∃ e, flast f.cs = some e ∧ h.level ≤ lvlE e :=
          Or.inl (htop f rfl)
        have hrw := insert_spine_fresh rest.reverse f roots h hmem hf' hcs
        show fapp roots (spineB ((f :: rest).reverse ++ [Frame.mk h ToCForest.nil])) =
          insertRec (fapp roots (spineB (f :: rest).reverse)) h
        have hl : (f :: rest).reverse = rest.reverse ++ [f] := by simp
        rw [hl, hrw]

theorem popCarry_stack_levels (L : ℕ) : ∀ (rest : List Frame) (roots : ToCForest)
    (e : ToCEntry), ((popCarry L roots e rest).2).map flvl =
      (rest.map flvl).dropWhile (fun a => decide (L ≤ a)) := by
  intro rest
  induction rest with
  | nil => intro roots e; rfl
  | cons g rest ih =>
    intro roots e
    by_cases hg : L ≤ flvl g
    · rw [popCarry, if_pos hg, ih roots (finF (addChild g e))]
      have hg' : decide (L ≤ flvl g) = true := by
        simpa using hg
      simp [List.dropWhile, hg']
    · rw [popCarry, if_neg hg]
      have hg' : decide (L ≤ flvl g) = false := by
        simpa using hg
      have haddl : flvl (addChild g e) = flvl g := rfl
      simp [List.dropWhile_cons, hg', haddl]

theorem popGE_stack_levels (L : ℕ) (roots : ToCForest) : ∀ (stack : List Frame),
    ((popGE L roots stack).2).map flvl =
      (stack.map flvl).dropWhile (fun a => decide (L ≤ a)) := by
  intro stack
  cases stack with
  | nil => rfl
  | cons f rest =>
    by_cases hf : L ≤ flvl f
    · rw [popGE, if_pos hf, popCarry_stack_levels]
      have hf' : decide (L ≤ flvl f) = true := by
        simpa using hf
      simp [List.dropWhile, hf']
    · rw [popGE, if_neg hf]
      have hf' : decide (L ≤ flvl f) = false := by
        simpa using hf
      simp [List.dropWhile, hf']

theorem lt_of_mem_dropWhile_pairwise (L : ℕ) : ∀ (l : List ℕ),
    List.Pairwise (fun a b => b < a) l →
    ∀ x ∈ l.dropWhile (fun a => decide (L ≤ a)), x < L := by
  intro l
  induction l with
  | nil => intro _ x hx; simp [List.dropWhile] at hx
  | cons c t ih =>
    intro hpw x hx
    by_cases hc : L ≤ c
    · rw [List.dropWhile_cons, if_pos (by simpa using hc)] at hx
      exact ih (List.Pairwise.of_cons hpw) x hx
    · rw [List.dropWhile_cons, if_neg (by simpa using hc)] at hx
      rcases List.mem_cons.mp hx with h | h
      · omega
      · have : x < c := (List.pairwise_cons.mp hpw).1 x h
        omega

theorem invB_stepB (st : BState) (h : Heading) (hinv : InvB st) : InvB (stepB st h) := by
  obtain ⟨hpw, -, -⟩ := hinv
  have hstack : (stepB st h).stack =
      ⟨h, ToCForest.nil⟩ :: (popGE h.level st.roots st.stack).2 := rfl
  refine ⟨?_, ?_, ?_⟩
  · rw [hstack, List.pairwise_cons]
    constructor
    · intro f hf
      have hmemlvl : flvl f ∈ ((popGE h.level st.roots st.stack).2).map flvl :=
        List.mem_map_of_mem flvl hf
      rw [popGE_stack_levels] at hmemlvl
      exact lt_of_mem_dropWhile_pairwise h.level (st.stack.map flvl)
        ((List.pairwise_map).mpr hpw) (flvl f) hmemlvl
    · have hsub : List.Sublist (((popGE h.level st.roots st.stack).2).map flvl)
          (st.stack.map flvl) := by
        rw [popGE_stack_levels]
        exact List.dropWhile_sublist _
      have : List.Pairwise (fun a b => b < a)
          (((popGE h.level st.roots st.stack).2).map flvl) :=
        List.Pairwise.sublist hsub ((List.pairwise_map).mpr hpw)
      exact (List.pairwise_map).mp this
  · intro f hf
    rw [hstack] at hf
    simp only [List.head?_cons, Option.some.injEq] at hf
    rw [← hf]
  · intro hcontra
    rw [hstack] at hcontra
    exact absurd hcontra (List.cons_ne_nil _ _)

theorem invB_foldl : ∀ (hs : List Heading) (st : BState), InvB st →
    InvB (hs.foldl stepB st) := by
  intro hs
  induction hs with
  | nil => intro st hst; exact hst
  | cons h hs ih => intro st hst; exact ih (stepB st h) (invB_stepB st h hst)

theorem invB_init : InvB ⟨ToCForest.nil, []⟩ :=
  ⟨List.Pairwise.nil, by simp, fun _ => rfl⟩

/-- C4: the stack-based insertion of spec 4.2: on the matched sequence
    (level 1, A), (level 3, B), (level 1, C) it produces the forest with B
    nested under A despite the skipped level 2 and C as a fresh root; and in
    general one insertion step is exactly right-spine attachment: popping every
    open entry with level ≥ L and appending the new entry as last child of the
    entry then on top of the stack (or as a new root when the stack empties)
    equals insertRec, which appends below the deepest right-spine entry of
    level < L. -/
theorem toc_stack_insertion :
    buildToc [⟨['A'], 1, 1, none⟩, ⟨['B'], 3, 2, none⟩, ⟨['C'], 1, 3, none⟩] =
      ToCForest.cons
        (ToCEntry.mk ⟨['A'], 1, 1, none⟩
          (ToCForest.cons (ToCEntry.mk ⟨['B'], 3, 2, none⟩ ToCForest.nil) ToCForest.nil))
        (ToCForest.cons (ToCEntry.mk ⟨['C'], 1, 3, none⟩ ToCForest.nil) ToCForest.nil) ∧
    ∀ (hs : List Heading) (h : Heading),
      buildToc (hs ++ [h]) = insertRec (buildToc hs) h := by
  constructor
  · decide
  · intro hs h
    show collapse ((hs ++ [h]).foldl stepB ⟨ToCForest.nil, []⟩) = _
    rw [List.foldl_append, List.foldl_cons, List.foldl_nil]
    exact step_insert (hs.foldl stepB ⟨ToCForest.nil, []⟩) h
      (invB_foldl hs ⟨ToCForest.nil, []⟩ invB_init)

theorem join_map_map (g : Span → List Char) :
    ∀ blk : Block, ((blk.map (fun ln => ln.map g)).flatten) = (blk.flatten).map g :=
  fun blk => (List.map_flatten g blk).symm

theorem partitionPlus_spec (l : List Char) :
    ('+' ∈ l → ∃ b a, partitionPlus l = some (b, a) ∧ l = b ++ '+' :: a ∧ '+' ∉ b) ∧
    ('+' ∉ l → partitionPlus l = none) := by
  induction l with
  | nil => simp [partitionPlus]
  | cons c rest ih =>
    by_cases hc : c = '+'
    · subst hc
      refine ⟨fun _ => ⟨[], rest, ?_, rfl, by simp⟩, fun hn => absurd (by simp) hn⟩
      simp [partitionPlus]
    · constructor
      · intro hmem
        have hmem' : '+' ∈ rest := by
          rcases List.mem_cons.mp hmem with h | h
          · exact absurd h.symm hc
          · exact h
        obtain ⟨b, a, hpp, heq, hnb⟩ := ih.1 hmem'
        refine ⟨c :: b, a, ?_, by simp [heq], ?_⟩
        · simp [partitionPlus, hc, hpp]
        · simp [hnb]
          exact fun h => hc h.symm
      · intro hn
        have hn' : '+' ∉ rest := fun h => hn (List.mem_cons_of_mem _ h)
        simp [partitionPlus, hc, ih.2 hn']

/-- C1 (code divergence exhibit): the specification says a span is admitted
    with respect to size iff the absolute difference is at most the tolerance
    (default 1e-5, boundary inclusive), but ToCFilter.admits compares sizes
    with exact equality and never calls admits_float: with filter size 2 and
    span size 2 + 1/200000, the difference 1/200000 is within DEF_TOLERANCE
    and admits_float admits it, yet admits rejects the span. -/
theorem admits_size_ignores_tolerance :
    ToCFilter.admits ⟨1, false, none, some 2⟩ ⟨none, some (2 + 1/200000), none⟩ = false ∧
    admits_float (some 2) (some (2 + 1/200000)) DEF_TOLERANCE = true ∧
    |(2 : ℚ) - (2 + 1/200000)| ≤ DEF_TOLERANCE := by
  refine ⟨?_, ?_, ?_⟩
  · simp only [ToCFilter.admits]
    rw [if_neg (by simp)]
    simp only [decide_eq_false_iff_not, not_or]
    refine ⟨by simp, ?_⟩
    simp only [Option.some.injEq]
    norm_num
  · simp only [admits_float, DEF_TOLERANCE, decide_eq_true_iff, abs_le]
    norm_num
  · simp only [DEF_TOLERANCE, abs_le]
    norm_num

/-- C2: constructing a ToCFilter from a recipe entry fails with the
    specification's RecipeError exactly when the level is missing or below 1,
    and succeeds for every entry with level ≥ 1.  Construction consumes only
    the recipe entry, so the failure precedes any span processing. -/
theorem ofDict_level_validation (d : FilterDict) :
    (d.level = none → ToCFilter.ofDict d = Except.error RecipeError.levelMissing) ∧
    (∀ l, d.level = some l → l < 1 →
      ToCFilter.ofDict d = Except.error RecipeError.levelNotPositive) ∧
    (∀ l, d.level = some l → 1 ≤ l → ∃ f, ToCFilter.ofDict d = Except.ok f ∧ f.level = l) := by
  refine ⟨?_, ?_, ?_⟩
  · intro h; simp [ToCFilter.ofDict, h]
  · intro l hl hlt; simp [ToCFilter.ofDict, hl, hlt]
  · intro l hl hge
    refine ⟨⟨l, d.greedy.getD false, (d.font.getD ⟨none, none⟩).name,
      (d.font.getD ⟨none, none⟩).size⟩, ?_, rfl⟩
    simp [ToCFilter.ofDict, hl, show ¬ l < 1 by omega]

theorem ofDict_level_validation_witness :
    ToCFilter.ofDict ⟨some 0, none, none⟩ = Except.error RecipeError.levelNotPositive ∧
    ToCFilter.ofDict ⟨none, some true, none⟩ = Except.error RecipeError.levelMissing ∧
    ∃ f, ToCFilter.ofDict ⟨some 2, none, none⟩ = Except.ok f ∧ f.level = 2 :=
  ⟨(ofDict_level_validation ⟨some 0, none, none⟩).2.1 0 rfl (by decide),
   (ofDict_level_validation ⟨none, some true, none⟩).1 rfl,
   (ofDict_level_validation ⟨some 2, none, none⟩).2.2 2 rfl (by decide)⟩

/-- C6: when font_name is set, admits accepts a span only if the span's font
    equals it exactly, case-sensitively and including any font-subset prefix:
    a filter for ABCDEF+Times rejects the bare Times and accepts the exact
    ABCDEF+Times, so no normalization happens at matching time. -/
theorem admits_font_name_exact :
    (∀ (fltr : ToCFilter) (spn : Span) (n : List Char),
      fltr.font_name = some n → fltr.admits spn = true → spn.font = some n) ∧
    ToCFilter.admits ⟨1, false, some "ABCDEF+Times".toList, none⟩
      ⟨some "Times".toList, none, none⟩ = false ∧
    ToCFilter.admits ⟨1, false, some "ABCDEF+Times".toList, none⟩
      ⟨some "ABCDEF+Times".toList, none, none⟩ = true := by
  refine ⟨?_, by decide, by decide⟩
  intro fltr spn n hn hadm
  by_contra hne
  have hcond : fltr.font_name ≠ none ∧ fltr.font_name ≠ spn.font := by
    refine ⟨by simp [hn], ?_⟩
    rw [hn]
    exact fun h => hne h.symm
  simp [ToCFilter.admits, if_pos hcond] at hadm

theorem admits_font_name_exact_witness :
    Span.font ⟨some "F".toList, none, none⟩ = some "F".toList :=
  admits_font_name_exact.1 ⟨1, false, some "F".toList, none⟩
    ⟨some "F".toList, none, none⟩ "F".toList rfl (by decide)

/-- C7: unset filter attributes are wildcards: a filter with both font_name
    and font_size unset admits every span, and a filter with only level and
    font_size set admits every span of exactly that size, whatever the span's
    font name (present, different, or missing). -/
theorem admits_unset_wildcards :
    (∀ (fltr : ToCFilter) (spn : Span),
      fltr.font_name = none → fltr.font_size = none → fltr.admits spn = true) ∧
    (∀ (fltr : ToCFilter) (spn : Span) (s : ℚ),
      fltr.font_name = none → fltr.font_size = some s → spn.size = some s →
      fltr.admits spn = true) := by
  constructor
  · intro fltr spn hn hs
    simp [ToCFilter.admits, hn, hs]
  · intro fltr spn s hn hs hsp
    simp [ToCFilter.admits, hn, hs, hsp]

theorem admits_unset_wildcards_witness :
    ToCFilter.admits ⟨3, false, none, none⟩ ⟨some "Any".toList, some 7, some "t".toList⟩ = true ∧
    ToCFilter.admits ⟨2, false, none, some 7⟩ ⟨some "Other".toList, some 7, none⟩ = true :=
  ⟨admits_unset_wildcards.1 ⟨3, false, none, none⟩
      ⟨some "Any".toList, some 7, some "t".toList⟩ rfl rfl,
   admits_unset_wildcards.2 ⟨2, false, none, some 7⟩
      ⟨some "Other".toList, some 7, none⟩ 7 rfl rfl rfl⟩

/-- C9: admits is a total boolean function of the span dictionary (the
    embedding returns Bool on every input, mirroring the source's use of
    dict.get, which never raises): a span lacking the 'font' key fails every
    filter with font_name set, and a span lacking the 'size' key fails every
    filter with font_size set. -/
theorem admits_missing_keys :
    (∀ (fltr : ToCFilter) (spn : Span),
      fltr.font_name ≠ none → spn.font = none → fltr.admits spn = false) ∧
    (∀ (fltr : ToCFilter) (spn : Span),
      fltr.font_size ≠ none → spn.size = none → fltr.admits spn = false) := by
  constructor
  · intro fltr spn hn hf
    have hcond : fltr.font_name ≠ none ∧ fltr.font_name ≠ spn.font := by
      refine ⟨hn, ?_⟩
      rw [hf]
      exact hn
    simp [ToCFilter.admits, if_pos hcond]
  · intro fltr spn hs hsp
    unfold ToCFilter.admits
    split
    · rfl
    · simp [hsp]
      exact fun h => absurd h hs

theorem admits_missing_keys_witness :
    ToCFilter.admits ⟨1, false, some "Times".toList, none⟩ ⟨none, some 7, none⟩ = false ∧
    ToCFilter.admits ⟨1, false, none, some 7⟩ ⟨some "Times".toList, none, none⟩ = false :=
  ⟨admits_missing_keys.1 ⟨1, false, some "Times".toList, none⟩ ⟨none, some 7, none⟩
      (by simp) rfl,
   admits_missing_keys.2 ⟨1, false, none, some 7⟩ ⟨some "Times".toList, none, none⟩
      (by simp) rfl⟩

/-- C5: when the winning filter is greedy, the heading's text is the entire
    enclosing block rendered by blk_to_str: all span texts of the block, in
    block order, each trimmed, joined with single spaces.  On a three-span
    block the title concatenates all three texts and differs from the matched
    span's own text. -/
theorem greedy_title_whole_block :
    (∀ (fltr : ToCFilter) (blk : Block) (spn : Span), fltr.greedy = true →
      heading_text fltr blk spn =
        pyJoin [' '] ((blk.flatten).map (fun s => trim (s.text.getD [])))) ∧
    heading_text ⟨1, true, none, none⟩
      [[⟨none, none, some " Intro ".toList⟩, ⟨none, none, some "to".toList⟩],
       [⟨none, none, some " PDFs ".toList⟩]]
      ⟨none, none, some "to".toList⟩ = "Intro to PDFs".toList ∧
    heading_text ⟨1, true, none, none⟩
      [[⟨none, none, some " Intro ".toList⟩, ⟨none, none, some "to".toList⟩],
       [⟨none, none, some " PDFs ".toList⟩]]
      ⟨none, none, some "to".toList⟩ ≠ (Span.text ⟨none, none, some "to".toList⟩).getD [] := by
  refine ⟨?_, by decide, by decide⟩
  intro fltr blk spn hg
  rw [heading_text, if_pos hg, blk_to_str, join_map_map]

theorem greedy_title_whole_block_witness :
    heading_text ⟨1, true, none, none⟩ [[⟨none, none, some "A ".toList⟩],
      [⟨none, none, some " B".toList⟩]] ⟨none, none, some "A ".toList⟩ =
      pyJoin [' ']
        (([[(⟨none, none, some "A ".toList⟩ : Span)], [⟨none, none, some " B".toList⟩]].flatten).map
          (fun s => trim (s.text.getD []))) :=
  greedy_title_whole_block.1 ⟨1, true, none, none⟩
    [[⟨none, none, some "A ".toList⟩], [⟨none, none, some " B".toList⟩]]
    ⟨none, none, some "A ".toList⟩ rfl

/-- C8: the font.name emitted when authoring a recipe entry from a span
    (dump_toml) is the span's font name with any font-subset prefix stripped:
    the portion after the first '+' when the name contains one, and the name
    unchanged otherwise. -/
theorem dump_toml_font_strips_subset :
    ∀ (spn : Span) (f : List Char), spn.font = some f →
      ('+' ∈ f → ∃ b a, f = b ++ '+' :: a ∧ '+' ∉ b ∧ dump_toml_font spn = some a) ∧
      ('+' ∉ f → dump_toml_font spn = some f) := by
  intro spn f hf
  constructor
  · intro hmem
    obtain ⟨b, a, hpp, heq, hnb⟩ := (partitionPlus_spec f).1 hmem
    exact ⟨b, a, heq, hnb, by simp [dump_toml_font, hf, stripSubsetPfx, hpp]⟩
  · intro hn
    simp [dump_toml_font, hf, stripSubsetPfx, (partitionPlus_spec f).2 hn]

theorem dump_toml_font_strips_subset_witness :
    (∃ b a, "ABCDEF+Times".toList = b ++ '+' :: a ∧ '+' ∉ b ∧
      dump_toml_font ⟨some "ABCDEF+Times".toList, none, none⟩ = some a) ∧
    dump_toml_font ⟨some "Times".toList, none, none⟩ = some "Times".toList :=
  ⟨(dump_toml_font_strips_subset ⟨some "ABCDEF+Times".toList, none, none⟩
      "ABCDEF+Times".toList rfl).1 (by decide),
   (dump_toml_font_strips_subset ⟨some "Times".toList, none, none⟩
      "Times".toList rfl).2 (by decide)⟩

/-- C10: extract_meta with an explicit page number that is out of range
    (below 1 or above the page count) returns the empty list rather than
    failing, and with an in-range page number it searches exactly the
    requested page and nothing else. -/
theorem extract_meta_page_range :
    (∀ (doc : List Page) (sel : List Char → Bool) (p : ℤ),
      p < 1 ∨ (doc.length : ℤ) < p → extract_meta doc sel (some p) = []) ∧
    (∀ (doc : List Page) (sel : List Char → Bool) (p : ℤ),
      1 ≤ p → p ≤ (doc.length : ℤ) →
      extract_meta doc sel (some p) =
        search_in_page sel (doc.getD (p - 1).toNat [])) := by
  constructor
  · intro doc sel p hp
    simp only [extract_meta]
    rw [if_neg]
    omega
  · intro doc sel p h1 h2
    simp only [extract_meta]
    rw [if_pos ⟨h1, h2⟩]

theorem extract_meta_page_range_witness :
    extract_meta [[[[⟨none, none, some "x".toList⟩]]]] (fun _ => true) (some 5) = [] ∧
    extract_meta [[[[⟨none, none, some "x".toList⟩]]]] (fun _ => true) (some 1) =
      search_in_page (fun _ => true) ([[[[⟨none, none, some "x".toList⟩]]]].getD
        ((1 : ℤ) - 1).toNat []) :=
  ⟨extract_meta_page_range.1 [[[[⟨none, none, some "x".toList⟩]]]] (fun _ => true) 5
      (by right; decide),
   extract_meta_page_range.2 [[[[⟨none, none, some "x".toList⟩]]]] (fun _ => true) 1
      (by decide) (by decide)⟩

theorem digitVal_digitChar (d : ℕ) (hd : d < 10) : digitVal (digitChar d) = d := by
  interval_cases d <;> decide

theorem isDigitCh_digitChar (d : ℕ) (hd : d < 10) : isDigitCh (digitChar d) = true := by
  interval_cases d <;> decide

theorem isDigitCh_props (c : Char) (h : isDigitCh c = true) :
    c ≠ ' ' ∧ c ≠ '|' ∧ c ≠ '\n' := by
  refine ⟨fun he => ?_, fun he => ?_, fun he => ?_⟩ <;>
    (subst he; exact absurd h (by decide))

theorem natCharsAux_digits : ∀ (fuel n : ℕ), ∀ c ∈ natCharsAux fuel n, isDigitCh c = true
  | 0, _ => by simp [natCharsAux]
  | _ + 1, 0 => by simp [natCharsAux]
  | fuel + 1, n + 1 => by
    intro c hc
    rw [natCharsAux] at hc
    rcases List.mem_append.mp hc with h | h
    · exact natCharsAux_digits fuel ((n + 1) / 10) c h
    · rw [List.mem_singleton] at h
      subst h
      exact isDigitCh_digitChar _ (Nat.mod_lt _ (by norm_num))

theorem natCharsAux_val : ∀ (fuel n : ℕ), n ≤ fuel →
    Nat.ofDigits 10 ((natCharsAux fuel n).map digitVal).reverse = n
  | 0, n, hn => by
    have h0 : n = 0 := by omega
    subst h0
    simp [natCharsAux, Nat.ofDigits]
  | fuel + 1, 0, _ => by simp [natCharsAux, Nat.ofDigits]
  | fuel + 1, n + 1, hn => by
    rw [natCharsAux, List.map_append, List.reverse_append]
    have hmod : digitVal (digitChar ((n + 1) % 10)) = (n + 1) % 10 :=
      digitVal_digitChar _ (Nat.mod_lt _ (by norm_num))
    simp only [List.map_cons, List.map_nil, List.reverse_cons, List.reverse_nil,
      List.nil_append, List.cons_append, hmod]
    rw [Nat.ofDigits_cons, natCharsAux_val fuel ((n + 1) / 10)
      (by have := Nat.div_lt_self (Nat.succ_pos n) (by norm_num : 1 < 10); omega)]
    omega

theorem natCharsAux_ne_nil (fuel n : ℕ) (h1 : 1 ≤ n) (h2 : n ≤ fuel) :
    natCharsAux fuel n ≠ [] := by
  cases fuel with
  | zero => omega
  | succ fuel =>
    cases n with
    | zero => omega
    | succ n => simp [natCharsAux]

theorem natChars_digits (n : ℕ) : ∀ c ∈ natChars n, isDigitCh c = true := by
  intro c hc
  rw [natChars] at hc
  by_cases h0 : n = 0
  · rw [if_pos h0, List.mem_singleton] at hc
    subst hc
    decide
  · rw [if_neg h0] at hc
    exact natCharsAux_digits n n c hc

theorem natChars_ne_ws (n : ℕ) : ∀ c ∈ natChars n, c ≠ ' ' ∧ c ≠ '|' ∧ c ≠ '\n' :=
  fun c hc => isDigitCh_props c (natChars_digits n c hc)

theorem parse_natChars (n : ℕ) : parseNatDigits (natChars n) = some n := by
  by_cases h0 : n = 0
  · subst h0
    decide
  · rw [natChars, if_neg h0, parseNatDigits, if_pos]
    · rw [natCharsAux_val n n (le_refl n)]
    · exact ⟨natCharsAux_ne_nil n n (by omega) (le_refl n),
        List.all_eq_true.mpr (fun c hc => natCharsAux_digits n n c hc)⟩

theorem countPairs_replicate : ∀ (k : ℕ) (rest : List Char),
    countPairs (List.replicate (2 * k) ' ' ++ rest) = k + countPairs rest
  | 0, rest => by simp
  | k + 1, rest => by
    have hrep : List.replicate (2 * (k + 1)) ' ' =
        ' ' :: ' ' :: List.replicate (2 * k) ' ' := by
      have h2 : 2 * (k + 1) = (2 * k) + 1 + 1 := by omega
      rw [h2, List.replicate_succ, List.replicate_succ]
    rw [hrep, List.cons_append, List.cons_append, countPairs,
      if_pos ⟨rfl, rfl⟩, countPairs_replicate k rest]
    omega

theorem countPairs_title (title rest2 : List Char)
    (h : title = [] ∨ ∃ c t, title = c :: t ∧ c ≠ ' ') :
    countPairs (title ++ ' ' :: '|' :: rest2) = 0 := by
  rcases h with h | ⟨c, t, ht, hc⟩
  · subst h
    rw [List.nil_append, countPairs, if_neg]
    rintro ⟨-, h2⟩
    exact absurd h2 (by decide)
  · subst ht
    cases t with
    | nil =>
      rw [List.cons_append, List.nil_append, countPairs, if_neg]
      rintro ⟨h1, -⟩
      exact hc h1
    | cons c2 t2 =>
      rw [List.cons_append, List.cons_append, countPairs, if_neg]
      rintro ⟨h1, -⟩
      exact hc h1

theorem trim_head_not_space (l : List Char) (h : trim l = l) :
    l = [] ∨ ∃ c t, l = c :: t ∧ c ≠ ' ' := by
  cases l with
  | nil => exact Or.inl rfl
  | cons c t =>
    refine Or.inr ⟨c, t, rfl, ?_⟩
    intro hc
    subst hc
    have h1 : (trim (' ' :: t)).length ≤ t.length := by
      rw [trim]
      have e1 : List.dropWhile isWS (' ' :: t) = List.dropWhile isWS t := by
        rw [List.dropWhile_cons, if_pos (by decide)]
      rw [e1]
      calc ((List.dropWhile isWS t).reverse.dropWhile isWS).reverse.length
          = ((List.dropWhile isWS t).reverse.dropWhile isWS).length :=
            List.length_reverse _
        _ ≤ (List.dropWhile isWS t).reverse.length := (List.dropWhile_sublist _).length_le
        _ = (List.dropWhile isWS t).length := List.length_reverse _
        _ ≤ t.length := (List.dropWhile_sublist _).length_le
    rw [h] at h1
    simp at h1

theorem splitFirstSep_app (ys : List Char) : ∀ xs : List Char, (∀ c ∈ xs, c ≠ ' ') →
    splitFirstSep (xs ++ ' ' :: '|' :: ' ' :: ys) = some (xs, ys) := by
  intro xs
  induction xs with
  | nil =>
    intro _
    rw [List.nil_append, splitFirstSep, if_pos]
    · simp
    · simp [sepC, List.take]
  | cons x xs ih =>
    intro hmem
    have hx : x ≠ ' ' := hmem x (by simp)
    rw [List.cons_append, splitFirstSep, if_neg, ih (fun c hc => hmem c (by simp [hc]))]
    · rfl
    · intro hcontra
      rw [show ((x :: (xs ++ ' ' :: '|' :: ' ' :: ys)).take 3) =
        x :: ((xs ++ ' ' :: '|' :: ' ' :: ys).take 2) from rfl, sepC] at hcontra
      exact hx (List.cons_eq_cons.mp hcontra).1

theorem splitFirstSep_none : ∀ l : List Char, ¬ HasSep l → splitFirstSep l = none := by
  intro l
  induction l with
  | nil => intro _; rfl
  | cons c rest ih =>
    intro hns
    have hrest : ¬ HasSep rest := by
      rintro ⟨a, b, hab⟩
      exact hns ⟨c :: a, b, by simp [hab]⟩
    have hcond : ¬ ((c :: rest).take 3 = sepC) := by
      intro ht
      have hdec : c :: rest = sepC ++ (c :: rest).drop 3 := by
        conv_lhs => rw [← List.take_append_drop 3 (c :: rest)]
        rw [ht]
      exact hns ⟨[], (c :: rest).drop 3, by simpa using hdec⟩
    rw [splitFirstSep, if_neg hcond, ih hrest]
    rfl

theorem hasSep_isSome : ∀ l : List Char, HasSep l → (splitFirstSep l).isSome = true := by
  intro l
  induction l with
  | nil =>
    rintro ⟨a, b, hab⟩
    have := congrArg List.length hab
    simp [sepC] at this
    omega
  | cons c rest ih =>
    rintro ⟨a, b, hab⟩
    by_cases hcond : (c :: rest).take 3 = sepC
    · rw [splitFirstSep, if_pos hcond]
      rfl
    · rw [splitFirstSep, if_neg hcond]
      cases a with
      | nil =>
        exfalso
        apply hcond
        rw [List.nil_append] at hab
        rw [hab]
        simp [sepC, List.take]
      | cons a0 a2 =>
        have hshift : rest = a2 ++ sepC ++ b := by
          have h2 := hab
          simp only [List.cons_append, List.append_assoc] at h2 ⊢
          have h3 := (List.cons_eq_cons.mp h2).2
          simpa [List.append_assoc] using h3
        have hs := ih ⟨a2, b, hshift⟩
        rcases Option.isSome_iff_exists.mp hs with ⟨p, hp⟩
        rw [hp]
        rfl

theorem not_hasSep (l : List Char) (h : splitFirstSep l = none) : ¬ HasSep l := by
  intro hs
  have hsome := hasSep_isSome l hs
  rw [h] at hsome
  exact absurd hsome (by decide)

theorem hasSep_reverse (l : List Char) : HasSep l.reverse ↔ HasSep l := by
  constructor
  · rintro ⟨a, b, hab⟩
    refine ⟨b.reverse, a.reverse, ?_⟩
    have h2 := congrArg List.reverse hab
    rw [List.reverse_reverse] at h2
    rw [h2]
    simp [sepC]
  · rintro ⟨a, b, hab⟩
    exact ⟨b.reverse, a.reverse, by simp [hab, sepC]⟩

theorem splitLastSep_app (t ds : List Char) (hds : ∀ c ∈ ds, c ≠ ' ') :
    splitLastSep (t ++ sepC ++ ds) = some (t, ds) := by
  rw [splitLastSep]
  have hrev : (t ++ sepC ++ ds).reverse =
      ds.reverse ++ ' ' :: '|' :: ' ' :: t.reverse := by
    simp [sepC]
  rw [hrev, splitFirstSep_app t.reverse ds.reverse
    (fun c hc => hds c (List.mem_reverse.mp hc))]
  simp

theorem splitLastSep_none (t : List Char) (h : ¬ HasSep t) : splitLastSep t = none := by
  rw [splitLastSep, splitFirstSep_none t.reverse (fun hr => h ((hasSep_reverse t).mp hr))]

theorem splitNl_single : ∀ l : List Char, '\n' ∉ l → splitNl l = [l] := by
  intro l
  induction l with
  | nil => intro _; rfl
  | cons c rest ih =>
    intro h
    have hc : ¬ (c = '\n') := fun hc => h (by simp [hc])
    have hrest : '\n' ∉ rest := fun hr => h (by simp [hr])
    rw [splitNl, if_neg hc, ih hrest]

theorem splitNl_append (r : List Char) : ∀ l : List Char, '\n' ∉ l →
    splitNl (l ++ '\n' :: r) = l :: splitNl r := by
  intro l
  induction l with
  | nil =>
    intro _
    rw [List.nil_append, splitNl, if_pos rfl]
  | cons c rest ih =>
    intro h
    have hc : ¬ (c = '\n') := fun hc => h (by simp [hc])
    have hrest : '\n' ∉ rest := fun hr => h (by simp [hr])
    rw [List.cons_append, splitNl, if_neg hc, ih hrest]

theorem splitNl_pyJoin : ∀ ls : List (List Char), ls ≠ [] → (∀ l ∈ ls, '\n' ∉ l) →
    splitNl (pyJoin ['\n'] ls) = ls
  | [], h, _ => absurd rfl h
  | [x], _, hmem => by
    rw [pyJoin]
    exact splitNl_single x (hmem x (by simp))
  | x :: y :: ls, _, hmem => by
    rw [pyJoin]
    have hx : '\n' ∉ x := hmem x (by simp)
    have hshape : x ++ ['\n'] ++ pyJoin ['\n'] (y :: ls) =
        x ++ '\n' :: pyJoin ['\n'] (y :: ls) := by simp
    rw [hshape, splitNl_append _ x hx,
      splitNl_pyJoin (y :: ls) (by simp) (fun l hl => hmem l (by simp [hl]))]

theorem parseLine_renderLine (h : Heading) (htrim : trim h.title = h.title)
    (hsep : ¬ HasSep h.title) (hlvl : 1 ≤ h.level) (hpg : 1 ≤ h.page) :
    parseLine (renderLine h) = some h := by
  obtain ⟨T, lv, pg, vp⟩ := h
  simp only at htrim hsep hlvl hpg
  have hhead := trim_head_not_space T htrim
  have hdsp : ∀ c ∈ natChars pg, c ≠ ' ' := fun c hc => (natChars_ne_ws _ c hc).1
  cases vp with
  | none =>
    have hline : renderLine ⟨T, lv, pg, none⟩ = List.replicate (2 * (lv - 1)) ' ' ++
        (T ++ ' ' :: '|' :: (' ' :: natChars pg)) := by
      rw [renderLine]
      simp [sepC, List.append_assoc]
    have hcp : countPairs (renderLine ⟨T, lv, pg, none⟩) = lv - 1 := by
      rw [hline, countPairs_replicate, countPairs_title T _ hhead]
      omega
    have hdrop : (renderLine ⟨T, lv, pg, none⟩).drop (2 * (lv - 1)) =
        T ++ sepC ++ natChars pg := by
      have hd := List.drop_left (List.replicate (2 * (lv - 1)) ' ')
        (T ++ ' ' :: '|' :: ' ' :: natChars pg)
      rw [List.length_replicate] at hd
      rw [hline, hd]
      simp [sepC, List.append_assoc]
    rw [parseLine, hcp, hdrop, splitLastSep_app T (natChars pg) hdsp]
    simp only [splitLastSep_none T hsep, parse_natChars pg, if_pos hpg,
      Option.some.injEq]
    rw [htrim]
    have : lv - 1 + 1 = lv := by omega
    rw [this]
  | some v =>
    have hdsv : ∀ c ∈ natChars v, c ≠ ' ' := fun c hc => (natChars_ne_ws _ c hc).1
    have hline : renderLine ⟨T, lv, pg, some v⟩ = List.replicate (2 * (lv - 1)) ' ' ++
        (T ++ ' ' :: '|' :: (' ' :: (natChars pg ++ ' ' :: '|' :: (' ' :: natChars v)))) := by
      rw [renderLine]
      simp [sepC, List.append_assoc]
    have hcp : countPairs (renderLine ⟨T, lv, pg, some v⟩) = lv - 1 := by
      rw [hline, countPairs_replicate, countPairs_title T _ hhead]
      omega
    have hdrop : (renderLine ⟨T, lv, pg, some v⟩).drop (2 * (lv - 1)) =
        (T ++ sepC ++ natChars pg) ++ sepC ++ natChars v := by
      have hd := List.drop_left (List.replicate (2 * (lv - 1)) ' ')
        (T ++ ' ' :: '|' :: ' ' :: (natChars pg ++ ' ' :: '|' :: ' ' :: natChars v))
      rw [List.length_replicate] at hd
      rw [hline, hd]
      simp [sepC, List.append_assoc]
    rw [parseLine, hcp, hdrop,
      splitLastSep_app (T ++ sepC ++ natChars pg) (natChars v) hdsv]
    simp only [splitLastSep_app T (natChars pg) hdsp, parse_natChars pg,
      parse_natChars v, if_pos hpg, Option.some.injEq]
    rw [htrim]
    have : lv - 1 + 1 = lv := by omega
    rw [this]

theorem renderLine_no_nl (h : Heading) (ht : '\n' ∉ h.title) : '\n' ∉ renderLine h := by
  obtain ⟨T, lv, pg, vp⟩ := h
  simp only at ht
  intro hmem
  cases vp with
  | none =>
    rw [renderLine] at hmem
    simp only [List.append_nil, List.mem_append] at hmem
    rcases hmem with ((hm | hm) | hm) | hm
    · exact absurd (List.eq_of_mem_replicate hm) (by decide)
    · exact ht hm
    · exact absurd hm (by decide)
    · exact (natChars_ne_ws pg '\n' hm).2.2 rfl
  | some v =>
    rw [renderLine] at hmem
    simp only [List.mem_append] at hmem
    rcases hmem with (((hm | hm) | hm) | hm) | (hm | hm)
    · exact absurd (List.eq_of_mem_replicate hm) (by decide)
    · exact ht hm
    · exact absurd hm (by decide)
    · exact (natChars_ne_ws pg '\n' hm).2.2 rfl
    · exact absurd hm (by decide)
    · exact (natChars_ne_ws v '\n' hm).2.2 rfl

theorem isBlank_renderLine (h : Heading) : isBlank (renderLine h) = false := by
  have hmem : '|' ∈ renderLine h := by
    rw [renderLine]
    simp [sepC]
  rw [isBlank]
  cases hall : (renderLine h).all isWS
  · rfl
  · exact absurd ((List.all_eq_true.mp hall) '|' hmem) (by decide)

theorem parseLines_render : ∀ (hs : List Heading) (i : ℕ),
    (∀ h ∈ hs, trim h.title = h.title ∧ ¬ HasSep h.title ∧ '\n' ∉ h.title ∧
      1 ≤ h.level ∧ 1 ≤ h.page) →
    parseLines i (hs.map renderLine) = Except.ok hs
  | [], _, _ => rfl
  | h :: hs, i, hmem => by
    obtain ⟨h1, h2, -, h4, h5⟩ := hmem h (by simp)
    rw [List.map_cons, parseLines, if_neg (by rw [isBlank_renderLine]; simp),
      parseLine_renderLine h h1 h2 h4 h5,
      parseLines_render hs (i + 1) (fun g hg => hmem g (by simp [hg]))]

/-- C3 (amended): parse is a left inverse of dump on every builder-produced
    tree whose heading titles are trimmed, contain no newline and no
    occurrence of the field separator, and whose levels and pages are
    positive — the same titles, levels, pages, vpos values and sibling order
    come back.  Without the separator restriction the round trip fails (see
    the counterexample): a title containing the separator shifts the
    rightmost-split field recovery. -/
theorem toc_roundtrip (hs : List Heading)
    (hgood : ∀ h ∈ hs, trim h.title = h.title ∧ ¬ HasSep h.title ∧
      '\n' ∉ h.title ∧ 1 ≤ h.level ∧ 1 ≤ h.page) :
    parseToc (dumpToc (buildToc hs)) = Except.ok (buildToc hs) := by
  rw [dumpToc, flattenF_buildToc]
  cases hs with
  | nil => rfl
  | cons h hs2 =>
    rw [parseToc, splitNl_pyJoin ((h :: hs2).map renderLine) (by simp)
      (fun l hl => by
        obtain ⟨g, hg, rfl⟩ := List.mem_map.mp hl
        exact renderLine_no_nl g (hgood g hg).2.2.1),
      parseLines_render (h :: hs2) 1 hgood]

theorem toc_roundtrip_witness :
    parseToc (dumpToc (buildToc [⟨['A'], 1, 2, none⟩, ⟨['B'], 2, 3, some 5⟩])) =
      Except.ok (buildToc [⟨['A'], 1, 2, none⟩, ⟨['B'], 2, 3, some 5⟩]) :=
  toc_roundtrip [⟨['A'], 1, 2, none⟩, ⟨['B'], 2, 3, some 5⟩] (by
    intro h hh
    rcases List.mem_cons.mp hh with rfl | hh2
    · exact ⟨by decide, not_hasSep _ (by decide), by decide, by decide, by decide⟩
    · rcases List.mem_cons.mp hh2 with rfl | hh3
      · exact ⟨by decide, not_hasSep _ (by decide), by decide, by decide, by decide⟩
      · exact absurd hh3 (by simp))

/-- C3 (counterexample to the claim as stated): for the builder-produced
    one-entry tree titled with the five characters of A space pipe space 3,
    at page 7 and with no vpos, the dumped line reads as a two-separator
    line, so parsing recovers title A, page 3 and vpos 7 instead of the
    original entry: parse of dump differs from the tree. -/
theorem toc_roundtrip_sep_counterexample :
    parseToc (dumpToc (buildToc [⟨['A', ' ', '|', ' ', '3'], 1, 7, none⟩])) ≠
      Except.ok (buildToc [⟨['A', ' ', '|', ' ', '3'], 1, 7, none⟩]) := by
  decide

end PdfToc
